import Mathlib

set_option maxHeartbeats 1000000

/-!
Verification development for the line-height index (`LineHeightManager` and
`SpecialLine` from the editor's line-height manager source file).

The TypeScript classes are shallowly embedded as follows: JS numbers (always
integral in this component) become `Int`; the mutable record objects, which are
shared by reference between the ordered array, the pending queue and the
decoration-id map, live in an explicit arena (`heap : List SpecialLine`), and
the array/queue/map store arena indices, so in-place mutation through one alias
is visible through every alias, as in JS.  `_invalidIndex`, which the source
sets to `Infinity` after a commit, becomes `Option Int` with `none` standing
for `Infinity`.  `Array.prototype.splice` is modelled with `List.take` /
`List.drop` together with the JS index/count normalisation.  The one fallible
operation, `onLinesDeleted`, returns `Option` because the source can read
`this._orderedSpecialLines[-1].lineNumber` (a TypeError in JS): this is
modelled as `none`.  Loops are modelled with fuel that is always at least the
number of remaining iterations, so every definition is executable and reduces
in the kernel.
-/

namespace LineHeight

/-- Translated from `class SpecialLine`: one record per decoration override. -/
structure SpecialLine where
  decorationId : String
  index : Int
  lineNumber : Int
  specialHeight : Int
  prefixSum : Int
  maximumSpecialHeight : Int
  deleted : Bool
deriving DecidableEq, Repr

/-- Arbitrary record used as the default of total list reads; every read that
matters is proved (or computed) to be in bounds. -/
def dummyLine : SpecialLine := ⟨"", 0, 0, 0, 0, 0, false⟩

/-- Read a record from the arena. -/
def heapGet (heap : List SpecialLine) (ref : Nat) : SpecialLine :=
  heap.getD ref dummyLine

/-- Translated from `class LineHeightManager`.  `heap` is the arena of record
objects; the map, the ordered array and the pending queue hold arena indices
(object references in the source). -/
structure LineHeightManager where
  heap : List SpecialLine
  decorationIDToSpecialLine : List (String × Nat)
  orderedSpecialLines : List Nat
  pendingSpecialLinesToInsert : List Nat
  invalidIndex : Option Int
  defaultLineHeight : Int
  hasPending : Bool
deriving DecidableEq, Repr

namespace LineHeightManager

/-- The constructor: field initialisers of the source class. -/
def create (defaultLineHeight : Int) : LineHeightManager :=
  { heap := [], decorationIDToSpecialLine := [], orderedSpecialLines := [],
    pendingSpecialLinesToInsert := [], invalidIndex := some 0,
    defaultLineHeight := defaultLineHeight, hasPending := false }

/-- `Map.prototype.get`. -/
def mapGet (m : List (String × Nat)) (k : String) : Option Nat :=
  (m.find? (fun p => p.1 = k)).map (fun p => p.2)

/-- `Map.prototype.set` (replaces the value of an existing key, otherwise
appends in insertion order). -/
def mapSet (m : List (String × Nat)) (k : String) (v : Nat) : List (String × Nat) :=
  if m.any (fun p => p.1 = k) then m.map (fun p => if p.1 = k then (k, v) else p)
  else m ++ [(k, v)]

/-- `Map.prototype.delete`. -/
def mapDelete (m : List (String × Nat)) (k : String) : List (String × Nat) :=
  m.filter (fun p => ¬ p.1 = k)

/-- `Math.min(invalidIndex, x)` where `none` models `Infinity`. -/
def minInf (inv : Option Int) (x : Int) : Option Int :=
  some (match inv with | none => x | some v => min v x)

/-- Modelled from the spec: `binarySearch2` is imported from
`base/common/arrays.js`, whose source is not part of this snapshot.  The spec
describes it as binary search driven by a three-way comparator
(negative / zero / positive) over index `0 .. length-1`, returning a
non-negative index on an exact match and `-(insertionIndex + 1)` on a miss.
`bsGo` is the standard `low`/`high` bisection loop in that convention, written
with `hi1 = high + 1` so that all index arithmetic stays in `Nat`; the fuel
argument is at least `hi1 - low`, which strictly decreases, so the fuel is
never exhausted when the top-level call passes `length`. -/
def bsGo (compareToKey : Nat → Int) : Nat → Nat → Nat → Int
  | 0, low, _ => -((low : Int) + 1)
  | fuel + 1, low, hi1 =>
    if low < hi1 then
      let mid := (low + hi1 - 1) / 2
      let comp := compareToKey mid
      if comp < 0 then bsGo compareToKey fuel (mid + 1) hi1
      else if 0 < comp then bsGo compareToKey fuel low mid
      else (mid : Int)
    else -((low : Int) + 1)

/-- Modelled from the spec: the public entry point of `binarySearch2`. -/
def binarySearch2 (length : Nat) (compareToKey : Nat → Int) : Int :=
  bsGo compareToKey length 0 length

/-- The comparator closure of `_binarySearchOverSpecialLinesArray`. -/
def lineCmp (heap : List SpecialLine) (ordered : List Nat) (lineNumber : Int)
    (index : Nat) : Int :=
  let line := heapGet heap (ordered.getD index 0)
  if line.lineNumber = lineNumber then 0
  else if line.lineNumber < lineNumber then -1
  else 1

/-- `_binarySearchOverSpecialLinesArray(lineNumber)`. -/
def binarySearchOverSpecialLinesArray (s : LineHeightManager) (lineNumber : Int) : Int :=
  binarySearch2 s.orderedSpecialLines.length
    (lineCmp s.heap s.orderedSpecialLines lineNumber)

/-- `removeSpecialLineUsingDecoration(decorationID)`. -/
def removeSpecialLineUsingDecoration (s : LineHeightManager) (decorationID : String) :
    LineHeightManager :=
  match mapGet s.decorationIDToSpecialLine decorationID with
  | none => s
  | some ref =>
    let specialLine := heapGet s.heap ref
    { s with
      decorationIDToSpecialLine := mapDelete s.decorationIDToSpecialLine decorationID,
      heap := s.heap.set ref { specialLine with deleted := true },
      invalidIndex := minInf s.invalidIndex specialLine.index,
      hasPending := true }

/-- `_insertSpecialLineHeight(decorationId, lineNumber, specialHeight)`: the new
record object is allocated in the arena and its reference is pushed onto the
pending queue. -/
def insertSpecialLineHeight (s : LineHeightManager) (decorationId : String)
    (lineNumber specialHeight : Int) : LineHeightManager :=
  let specialLine : SpecialLine :=
    { decorationId := decorationId, index := -1, lineNumber := lineNumber,
      specialHeight := specialHeight, prefixSum := 0,
      maximumSpecialHeight := specialHeight, deleted := false }
  { s with
    heap := s.heap ++ [specialLine],
    pendingSpecialLinesToInsert := s.pendingSpecialLinesToInsert ++ [s.heap.length],
    hasPending := true }

/-- `insertOrChangeSpecialLineHeightUsingDecoration(decorationId, lineNumber, lineHeight)`. -/
def insertOrChangeSpecialLineHeightUsingDecoration (s : LineHeightManager)
    (decorationId : String) (lineNumber lineHeight : Int) : LineHeightManager :=
  match mapGet s.decorationIDToSpecialLine decorationId with
  | none => insertSpecialLineHeight s decorationId lineNumber lineHeight
  | some ref =>
    let specialLine := heapGet s.heap ref
    { s with
      heap := s.heap.set ref
        { specialLine with lineNumber := lineNumber, specialHeight := lineHeight },
      invalidIndex := minInf s.invalidIndex specialLine.index,
      hasPending := true }

/-- `mustCommit()`. -/
def mustCommit (s : LineHeightManager) : Bool := s.hasPending

/-- The run scan of `commit` (the inner `j` loop): starting at the record’s own
index with its own `specialHeight` as accumulator, fold `Math.max` over the
following records while they share the line number, skipping deleted ones.
Fuel is the number of remaining array slots. -/
def maximumOverRun (heap : List SpecialLine) (ordered : List Nat) (line : Int) :
    Nat → Nat → Int → Int
  | 0, _, acc => acc
  | fuel + 1, j, acc =>
    match ordered.get? j with
    | none => acc
    | some ref =>
      let nextSpecialLine := heapGet heap ref
      if nextSpecialLine.deleted then maximumOverRun heap ordered line fuel (j + 1) acc
      else if nextSpecialLine.lineNumber = line then
        maximumOverRun heap ordered line fuel (j + 1) (max acc nextSpecialLine.specialHeight)
      else acc

/-- Accumulator of the rebuild loop of `commit`: the arena (records are mutated
in place), the running deletion count, the rebuilt ordered array and the
rebuilt decoration map. -/
structure CommitAcc where
  heap : List SpecialLine
  numberOfDeletions : Nat
  newOrderedSpecialLines : List Nat
  newDecorationIDToSpecialLineMap : List (String × Nat)
deriving DecidableEq, Repr

/-- The rebuild loop of `commit` (`for i = invalidIndex; i < length; i++`).
Deleted records are skipped (counting them); a surviving record gets
`index = i - numberOfDeletions`; if the record at the previous array slot
(deleted or not) has the same line number its `maximumSpecialHeight` and
`prefixSum` are copied from it, otherwise both are recomputed from the run scan
and the previous slot’s record (or the default-only prefix when `i = 0`). -/
def commitLoop (defaultLineHeight : Int) (ordered : List Nat) :
    Nat → Nat → CommitAcc → CommitAcc
  | 0, _, acc => acc
  | fuel + 1, i, acc =>
    match ordered.get? i with
    | none => acc
    | some ref =>
      let specialLine := heapGet acc.heap ref
      if specialLine.deleted then
        commitLoop defaultLineHeight ordered fuel (i + 1)
          { acc with numberOfDeletions := acc.numberOfDeletions + 1 }
      else
        let withIndex :=
          { specialLine with index := (i : Int) - (acc.numberOfDeletions : Int) }
        let updated :=
          if 0 < i then
            let previousSpecialLine := heapGet acc.heap (ordered.getD (i - 1) 0)
            if previousSpecialLine.lineNumber = withIndex.lineNumber then
              { withIndex with
                maximumSpecialHeight := previousSpecialLine.maximumSpecialHeight,
                prefixSum := previousSpecialLine.prefixSum }
            else
              { withIndex with
                maximumSpecialHeight :=
                  maximumOverRun acc.heap ordered withIndex.lineNumber
                    (ordered.length - i) i withIndex.specialHeight,
                prefixSum :=
                  previousSpecialLine.prefixSum + previousSpecialLine.maximumSpecialHeight +
                    defaultLineHeight *
                      (withIndex.lineNumber - previousSpecialLine.lineNumber - 1) }
          else
            { withIndex with
              maximumSpecialHeight :=
                maximumOverRun acc.heap ordered withIndex.lineNumber
                  (ordered.length - i) i withIndex.specialHeight,
              prefixSum := defaultLineHeight * (withIndex.lineNumber - 1) }
        commitLoop defaultLineHeight ordered fuel (i + 1)
          { heap := acc.heap.set ref updated,
            numberOfDeletions := acc.numberOfDeletions,
            newOrderedSpecialLines := acc.newOrderedSpecialLines ++ [ref],
            newDecorationIDToSpecialLineMap :=
              mapSet acc.newDecorationIDToSpecialLineMap updated.decorationId ref }

/-- Phase 1 of `commit`: merge each pending record into the ordered array at
its binary-search position (`splice(modifiedSearchInde, 0, pendingChange)`),
lowering `invalidIndex` to that position. -/
def mergePending (heap : List SpecialLine) (pending : List Nat)
    (ordered : List Nat) (inv : Option Int) : List Nat × Option Int :=
  pending.foldl
    (fun acc ref =>
      let searchIndex :=
        binarySearch2 acc.1.length (lineCmp heap acc.1 (heapGet heap ref).lineNumber)
      let modifiedSearchInde :=
        if 0 ≤ searchIndex then searchIndex.toNat else (-(searchIndex + 1)).toNat
      (acc.1.take modifiedSearchInde ++ ref :: acc.1.drop modifiedSearchInde,
       minInf acc.2 (modifiedSearchInde : Int)))
    (ordered, inv)

/-- `commit()`.  When nothing is pending it returns immediately.  Otherwise the
pending queue is merged (phase 1), the prefix `0 .. invalidIndex-1` of the
ordered array is carried over unchanged, and the rebuild loop processes the
rest.  The source's carry-over loop reads the array at every `i < invalidIndex`,
which in reachable dirty states satisfies `invalidIndex ≤ length`; it is
modelled with `List.take`, which agrees with the source for those states
(`none`, i.e. `Infinity`, cannot occur here together with `hasPending`, and is
mapped to the array length). -/
def commit (s : LineHeightManager) : LineHeightManager :=
  if s.hasPending then
    let merged :=
      mergePending s.heap s.pendingSpecialLinesToInsert s.orderedSpecialLines s.invalidIndex
    let ordered := merged.1
    let invN : Nat := match merged.2 with | none => ordered.length | some v => v.toNat
    let acc :=
      commitLoop s.defaultLineHeight ordered (ordered.length - invN) invN
        { heap := s.heap, numberOfDeletions := 0,
          newOrderedSpecialLines := ordered.take invN,
          newDecorationIDToSpecialLineMap := s.decorationIDToSpecialLine }
    { s with
      heap := acc.heap,
      orderedSpecialLines := acc.newOrderedSpecialLines,
      decorationIDToSpecialLine := acc.newDecorationIDToSpecialLineMap,
      pendingSpecialLinesToInsert := [],
      invalidIndex := none,
      hasPending := false }
  else s

/-- `heightForLineNumber(lineNumber)` on an already-committed manager (the body
after the `this.commit()` call). -/
def heightPostCommit (s : LineHeightManager) (lineNumber : Int) : Int :=
  let searchIndex := binarySearchOverSpecialLinesArray s lineNumber
  if 0 ≤ searchIndex then
    (heapGet s.heap (s.orderedSpecialLines.getD searchIndex.toNat 0)).maximumSpecialHeight
  else s.defaultLineHeight

/-- `heightForLineNumber(lineNumber)`. -/
def heightForLineNumber (s : LineHeightManager) (lineNumber : Int) : Int :=
  heightPostCommit (commit s) lineNumber

/-- `totalHeightUntilLineNumber(lineNumber)` on an already-committed manager. -/
def totalPostCommit (s : LineHeightManager) (lineNumber : Int) : Int :=
  let searchIndex := binarySearchOverSpecialLinesArray s lineNumber
  if 0 ≤ searchIndex then
    let specialLine := heapGet s.heap (s.orderedSpecialLines.getD searchIndex.toNat 0)
    specialLine.prefixSum + specialLine.maximumSpecialHeight
  else if searchIndex = -1 then s.defaultLineHeight * lineNumber
  else
    let modifiedIndex := (-(searchIndex + 1)).toNat
    let previousSpecialLine :=
      heapGet s.heap (s.orderedSpecialLines.getD (modifiedIndex - 1) 0)
    previousSpecialLine.prefixSum + previousSpecialLine.maximumSpecialHeight +
      s.defaultLineHeight * (lineNumber - previousSpecialLine.lineNumber)

/-- `totalHeightUntilLineNumber(lineNumber)`. -/
def totalHeightUntilLineNumber (s : LineHeightManager) (lineNumber : Int) : Int :=
  totalPostCommit (commit s) lineNumber

/-- The backward tie-widening loop shared by `onLinesDeleted` and
`onLinesInserted`: starting just below `k`, decrement while the record at the
slot below has the given line number. -/
def widenStart (heap : List SpecialLine) (ordered : List Nat) (target : Int) :
    Nat → Nat
  | 0 => 0
  | k + 1 =>
    if (heapGet heap (ordered.getD k 0)).lineNumber = target then
      widenStart heap ordered target k
    else k + 1

/-- The forward tie-widening loop of `onLinesDeleted`: starting just above `k`,
increment while the next record's line number equals the target (the source
compares against `fromLineNumber` here). -/
def widenEnd (heap : List SpecialLine) (ordered : List Nat) (target : Int) :
    Nat → Nat → Nat
  | 0, k => k
  | fuel + 1, k =>
    match ordered.get? (k + 1) with
    | none => k
    | some ref =>
      if (heapGet heap ref).lineNumber = target then
        widenEnd heap ordered target fuel (k + 1)
      else k

/-- Add `delta` to the `lineNumber` of every record referenced by `refs`,
mutating the arena in place. -/
def shiftLines (heap : List SpecialLine) (refs : List Nat) (delta : Int) :
    List SpecialLine :=
  refs.foldl
    (fun h ref =>
      let r := heapGet h ref
      h.set ref { r with lineNumber := r.lineNumber + delta })
    heap

/-- `modifiedStartIndexOfDeletion` of `onLinesDeleted`: on an exact match the
source widens backward across ties at `fromLineNumber` and then decrements once
more ("remove one because this one will be deleted"), which can produce `-1`. -/
def onLinesDeletedStart (s : LineHeightManager) (fromLineNumber : Int) : Int :=
  let startIndexOfDeletion := binarySearchOverSpecialLinesArray s fromLineNumber
  if 0 ≤ startIndexOfDeletion then
    (widenStart s.heap s.orderedSpecialLines fromLineNumber startIndexOfDeletion.toNat : Int)
      - 1
  else -(startIndexOfDeletion + 1)

/-- `modifiedEndIndexOfDeletion` of `onLinesDeleted`: on an exact match the
source widens forward while the line number equals `fromLineNumber` (sic) and
then increments once more. -/
def onLinesDeletedEnd (s : LineHeightManager) (fromLineNumber toLineNumber : Int) : Int :=
  let endIndexOfDeletion := binarySearchOverSpecialLinesArray s toLineNumber
  if 0 ≤ endIndexOfDeletion then
    (widenEnd s.heap s.orderedSpecialLines fromLineNumber s.orderedSpecialLines.length
        endIndexOfDeletion.toNat : Int) + 1
  else -(endIndexOfDeletion + 1)

/-- The start index of the splice of `onLinesDeleted`, after the JS
`Array.prototype.splice` normalisation of a possibly negative start. -/
def onLinesDeletedSpliceStart (s : LineHeightManager) (fromLineNumber : Int) : Nat :=
  if onLinesDeletedStart s fromLineNumber < 0 then
    ((s.orderedSpecialLines.length : Int) + onLinesDeletedStart s fromLineNumber).toNat
  else min (onLinesDeletedStart s fromLineNumber).toNat s.orderedSpecialLines.length

/-- The delete count of the splice of `onLinesDeleted`
(`modifiedEndIndexOfDeletion - modifiedStartIndexOfDeletion`), after the JS
clamping of the count to the available suffix. -/
def onLinesDeletedSpliceCount (s : LineHeightManager)
    (fromLineNumber toLineNumber : Int) : Nat :=
  min (onLinesDeletedEnd s fromLineNumber toLineNumber -
        onLinesDeletedStart s fromLineNumber).toNat
    (s.orderedSpecialLines.length - onLinesDeletedSpliceStart s fromLineNumber)

/-- `onLinesDeleted(fromLineNumber, toLineNumber)`: commit, locate the
sub-range via the two binary searches, `splice` it out (with the JS index/count
normalisation), then subtract the deleted line count from every record at or
after `modifiedStartIndexOfDeletion`.  When `modifiedStartIndexOfDeletion` is
negative the shift loop's first read is `orderedSpecialLines[-1].lineNumber`,
a TypeError in JS, modelled as `none`. -/
def onLinesDeleted (s0 : LineHeightManager) (fromLineNumber toLineNumber : Int) :
    Option LineHeightManager :=
  let s := commit s0
  let startN := onLinesDeletedSpliceStart s fromLineNumber
  let delCount := onLinesDeletedSpliceCount s fromLineNumber toLineNumber
  let ordered2 :=
    s.orderedSpecialLines.take startN ++ s.orderedSpecialLines.drop (startN + delCount)
  let numberOfDeletedLines := toLineNumber - fromLineNumber + 1
  if onLinesDeletedStart s fromLineNumber < 0 then none
  else
    some { s with
      orderedSpecialLines := ordered2,
      heap :=
        shiftLines s.heap (ordered2.drop (onLinesDeletedStart s fromLineNumber).toNat)
          (-numberOfDeletedLines) }

/-- `startIndex` of `onLinesInserted`: binary-search `fromLineNumber + 1`, and
on an exact match widen backward while the line number equals `fromLineNumber`
(sic). -/
def onLinesInsertedStart (s : LineHeightManager) (fromLineNumber : Int) : Nat :=
  let searchIndex := binarySearchOverSpecialLinesArray s (fromLineNumber + 1)
  if 0 ≤ searchIndex then
    widenStart s.heap s.orderedSpecialLines fromLineNumber searchIndex.toNat
  else (-(searchIndex + 1)).toNat

/-- `onLinesInserted(fromLineNumber, toLineNumber)`: commit, then add
`toLineNumber - fromLineNumber + 1` to the line number of every record at or
after `startIndex`. -/
def onLinesInserted (s0 : LineHeightManager) (fromLineNumber toLineNumber : Int) :
    LineHeightManager :=
  let s := commit s0
  let startIndex := onLinesInsertedStart s fromLineNumber
  let numberOfInsertedLines := toLineNumber - fromLineNumber + 1
  { s with
    heap :=
      shiftLines s.heap (s.orderedSpecialLines.drop startIndex) numberOfInsertedLines }

/-- The committed record sequence as values: the ordered array with every
reference dereferenced through the arena. -/
def recs (s : LineHeightManager) : List SpecialLine :=
  s.orderedSpecialLines.map (heapGet s.heap)

/-- The record at position `i` of the ordered array (as a value). -/
def recAt (s : LineHeightManager) (i : Nat) : SpecialLine :=
  (recs s).getD i dummyLine

end LineHeightManager

/-- A record with its `lineNumber` blanked out; used to state that an operation
changes nothing but line numbers. -/
def eraseLineNumber (r : SpecialLine) : SpecialLine := { r with lineNumber := 0 }

/-- The consistency invariants of a committed record sequence, as stated in the
spec (sortedness; no tombstones; line numbers at least 1; a run of records
sharing a line number shares one `maximumSpecialHeight` — the maximum of their
`specialHeight`s, attained by one of them — and one `prefixSum`; the first
record's `prefixSum` counts only default lines; a record starting a new run
chains its `prefixSum` from the previous slot's record). -/
def ConsistentRecs (defaultLineHeight : Int) (L : List SpecialLine) : Prop :=
  (∀ i, i < L.length → (L.getD i dummyLine).deleted = false) ∧
  (∀ i, i < L.length → 1 ≤ (L.getD i dummyLine).lineNumber) ∧
  (∀ i, i < L.length → ∀ j, j < L.length → i ≤ j →
      (L.getD i dummyLine).lineNumber ≤ (L.getD j dummyLine).lineNumber) ∧
  (∀ i, i < L.length → ∀ j, j < L.length →
      (L.getD i dummyLine).lineNumber = (L.getD j dummyLine).lineNumber →
      (L.getD i dummyLine).maximumSpecialHeight = (L.getD j dummyLine).maximumSpecialHeight ∧
      (L.getD i dummyLine).prefixSum = (L.getD j dummyLine).prefixSum) ∧
  (∀ i, i < L.length →
      (L.getD i dummyLine).specialHeight ≤ (L.getD i dummyLine).maximumSpecialHeight) ∧
  (∀ i, i < L.length → ∃ j, j < L.length ∧
      (L.getD j dummyLine).lineNumber = (L.getD i dummyLine).lineNumber ∧
      (L.getD i dummyLine).maximumSpecialHeight = (L.getD j dummyLine).specialHeight) ∧
  (0 < L.length →
      (L.getD 0 dummyLine).prefixSum =
        defaultLineHeight * ((L.getD 0 dummyLine).lineNumber - 1)) ∧
  (∀ i, i < L.length - 1 →
      ¬ (L.getD (i + 1) dummyLine).lineNumber = (L.getD i dummyLine).lineNumber →
      (L.getD (i + 1) dummyLine).prefixSum =
        (L.getD i dummyLine).prefixSum + (L.getD i dummyLine).maximumSpecialHeight +
          defaultLineHeight *
            ((L.getD (i + 1) dummyLine).lineNumber - (L.getD i dummyLine).lineNumber - 1))

instance (d : Int) (L : List SpecialLine) : Decidable (ConsistentRecs d L) := by
  unfold ConsistentRecs; infer_instance

open LineHeightManager

/-- A manager with default height 20 and one committed override `A` at line 5
with height 40 (the spec's single-override scenario). -/
def stateA5 : LineHeightManager :=
  commit (insertOrChangeSpecialLineHeightUsingDecoration (create 20) "A" 5 40)

/-- A manager with default height 20 and one committed override `A` at line 3
with height 40. -/
def stateA3 : LineHeightManager :=
  commit (insertOrChangeSpecialLineHeightUsingDecoration (create 20) "A" 3 40)

/-- A manager with default height 20 and two committed overrides: `A` at line 2
(height 30) and `B` at line 5 (height 40). -/
def stateAB25 : LineHeightManager :=
  commit (insertOrChangeSpecialLineHeightUsingDecoration
    (insertOrChangeSpecialLineHeightUsingDecoration (create 20) "A" 2 30) "B" 5 40)

/-- A manager with default height 20 and two committed overrides: `A` at line 1
(height 30) and `B` at line 2 (height 40). -/
def stateAB12 : LineHeightManager :=
  commit (insertOrChangeSpecialLineHeightUsingDecoration
    (insertOrChangeSpecialLineHeightUsingDecoration (create 20) "A" 1 30) "B" 2 40)

/-- A manager with default height 20 and two committed overrides on the same
line 5: `A` with height 40 and `B` with height 25 (the spec's max-wins
scenario). -/
def stateAB5 : LineHeightManager :=
  commit (insertOrChangeSpecialLineHeightUsingDecoration
    (insertOrChangeSpecialLineHeightUsingDecoration (create 20) "A" 5 40) "B" 5 25)

/-- The manager obtained from `stateAB25` by `onLinesDeleted(3, 4)` (that call
succeeds: its start index is non-negative). -/
def stateAB25del : LineHeightManager :=
  (onLinesDeleted stateAB25 3 4).getD (create 0)

/-!  Theorems. -/

/-! Small list bridging lemmas. -/

theorem map_getD_lt {α β : Type} (f : α → β) (l : List α) (i : Nat) (d : β) (d' : α)
    (h : i < l.length) : (l.map f).getD i d = f (l.getD i d') := by
  induction l generalizing i with
  | nil => exact absurd h (Nat.not_lt_zero i)
  | cons a t ih =>
    cases i with
    | zero => rfl
    | succ m => simpa using ih m (Nat.lt_of_succ_lt_succ h)

theorem getD_set_split {α : Type} (l : List α) (i j : Nat) (a d : α) :
    (l.set i a).getD j d = if i = j ∧ i < l.length then a else l.getD j d := by
  induction l generalizing i j with
  | nil => simp
  | cons b t ih =>
    cases i with
    | zero =>
      cases j with
      | zero => simp
      | succ m => simp
    | succ m =>
      cases j with
      | zero => simp
      | succ r =>
        rw [show (b :: t).set (m + 1) a = b :: t.set m a from rfl]
        rw [show (b :: t.set m a).getD (r + 1) d = (t.set m a).getD r d from rfl]
        rw [show (b :: t).getD (r + 1) d = t.getD r d from rfl]
        rw [ih m r]
        by_cases hm : m = r ∧ m < t.length
        · rw [if_pos hm, if_pos ⟨by omega, by simpa using Nat.succ_lt_succ hm.2⟩]
        · rw [if_neg hm, if_neg (by push_neg at hm ⊢; intro he; simp at he ⊢; omega)]

theorem recs_length (s : LineHeightManager) :
    (recs s).length = s.orderedSpecialLines.length := by
  simp [recs]

theorem recAt_eq (s : LineHeightManager) (i : Nat) (h : i < s.orderedSpecialLines.length) :
    recAt s i = heapGet s.heap (s.orderedSpecialLines.getD i 0) := by
  unfold recAt recs
  exact map_getD_lt (heapGet s.heap) s.orderedSpecialLines i dummyLine 0 h

/-! Characterisation of the modelled binary search on a sorted key sequence. -/

theorem bsGo_char (cmp : Nat → Int) (len : Nat) (key : Nat → Int) (t : Int)
    (hcmp : ∀ i, i < len → cmp i = if key i = t then 0 else if key i < t then -1 else 1)
    (hmono : ∀ i j, i ≤ j → j < len → key i ≤ key j) :
    ∀ fuel low hi1, low ≤ hi1 → hi1 ≤ len → hi1 - low ≤ fuel →
      (∀ i, i < low → key i < t) → (∀ i, hi1 ≤ i → i < len → t < key i) →
      (∃ k : Nat, bsGo cmp fuel low hi1 = (k : Int) ∧ k < len ∧ key k = t) ∨
      (∃ p : Nat, bsGo cmp fuel low hi1 = -((p : Int) + 1) ∧ p ≤ len ∧
        (∀ i, i < p → key i < t) ∧ (∀ i, p ≤ i → i < len → t < key i)) := by
  intro fuel
  induction fuel with
  | zero =>
    intro low hi1 hlow hhi hfuel hbelow habove
    right
    exact ⟨low, rfl, le_trans hlow hhi, hbelow, fun i hi hilen => habove i (by omega) hilen⟩
  | succ fuel ih =>
    intro low hi1 hlow hhi hfuel hbelow habove
    by_cases hlt : low < hi1
    · have hmid1 : low ≤ (low + hi1 - 1) / 2 := by
        rw [Nat.le_div_iff_mul_le (by omega : 0 < 2)]
        omega
      have hmid2 : (low + hi1 - 1) / 2 < hi1 := by
        rw [Nat.div_lt_iff_lt_mul (by omega : 0 < 2)]
        omega
      have hmidlen : (low + hi1 - 1) / 2 < len := lt_of_lt_of_le hmid2 hhi
      have hstep : bsGo cmp (fuel + 1) low hi1 =
          (if cmp ((low + hi1 - 1) / 2) < 0 then
            bsGo cmp fuel ((low + hi1 - 1) / 2 + 1) hi1
          else if 0 < cmp ((low + hi1 - 1) / 2) then
            bsGo cmp fuel low ((low + hi1 - 1) / 2)
          else (((low + hi1 - 1) / 2 : Nat) : Int)) := by
        rw [bsGo, if_pos hlt]
      rw [hstep, hcmp _ hmidlen]
      by_cases heq : key ((low + hi1 - 1) / 2) = t
      · rw [if_pos heq, if_neg (by norm_num : ¬ ((0 : Int) < 0)),
          if_neg (by norm_num : ¬ ((0 : Int) < 0))]
        exact Or.inl ⟨(low + hi1 - 1) / 2, rfl, hmidlen, heq⟩
      · rw [if_neg heq]
        by_cases hlt2 : key ((low + hi1 - 1) / 2) < t
        · rw [if_pos hlt2, if_pos (by norm_num : (-1 : Int) < 0)]
          refine ih ((low + hi1 - 1) / 2 + 1) hi1 (by omega) hhi (by omega) ?_ habove
          intro i hi
          exact lt_of_le_of_lt (hmono i ((low + hi1 - 1) / 2) (by omega) hmidlen) hlt2
        · have hgt : t < key ((low + hi1 - 1) / 2) := by
            rcases lt_trichotomy (key ((low + hi1 - 1) / 2)) t with h | h | h
            · exact absurd h hlt2
            · exact absurd h heq
            · exact h
          rw [if_neg hlt2, if_neg (by norm_num : ¬ ((1 : Int) < 0)),
            if_pos (by norm_num : (0 : Int) < 1)]
          refine ih low ((low + hi1 - 1) / 2) hmid1 (le_of_lt hmidlen) (by omega) hbelow ?_
          intro i hi hilen
          exact lt_of_lt_of_le hgt (hmono ((low + hi1 - 1) / 2) i hi hilen)
    · rw [bsGo, if_neg hlt]
      right
      exact ⟨low, rfl, by omega, hbelow, fun i hi hilen => habove i (by omega) hilen⟩

theorem binarySearch2_char (len : Nat) (cmp : Nat → Int) (key : Nat → Int) (t : Int)
    (hcmp : ∀ i, i < len → cmp i = if key i = t then 0 else if key i < t then -1 else 1)
    (hmono : ∀ i j, i ≤ j → j < len → key i ≤ key j) :
    (∃ k : Nat, binarySearch2 len cmp = (k : Int) ∧ k < len ∧ key k = t) ∨
    (∃ p : Nat, binarySearch2 len cmp = -((p : Int) + 1) ∧ p ≤ len ∧
      (∀ i, i < p → key i < t) ∧ (∀ i, p ≤ i → i < len → t < key i)) :=
  bsGo_char cmp len key t hcmp hmono len 0 len (Nat.zero_le len) (le_refl len)
    (by omega) (fun i hi => absurd hi (Nat.not_lt_zero i))
    (fun i hi hilen => absurd hilen (by omega))

theorem recAt_def (s : LineHeightManager) (i : Nat) :
    (recs s).getD i dummyLine = recAt s i := rfl

/-- Characterisation of `_binarySearchOverSpecialLinesArray` on a manager whose
committed record sequence is sorted by line number: an exact match returns an
in-bounds index holding the target line, a miss returns the encoded insertion
point, below which all lines are smaller and from which on all lines are
larger. -/
theorem searchOverOrdered_char (s : LineHeightManager) (t : Int)
    (hmono : ∀ i j, i ≤ j → j < s.orderedSpecialLines.length →
      (recAt s i).lineNumber ≤ (recAt s j).lineNumber) :
    (∃ k : Nat, binarySearchOverSpecialLinesArray s t = (k : Int) ∧
      k < s.orderedSpecialLines.length ∧ (recAt s k).lineNumber = t) ∨
    (∃ p : Nat, binarySearchOverSpecialLinesArray s t = -((p : Int) + 1) ∧
      p ≤ s.orderedSpecialLines.length ∧
      (∀ i, i < p → (recAt s i).lineNumber < t) ∧
      (∀ i, p ≤ i → i < s.orderedSpecialLines.length → t < (recAt s i).lineNumber)) := by
  have hcmp : ∀ i, i < s.orderedSpecialLines.length →
      lineCmp s.heap s.orderedSpecialLines t i =
        if (recAt s i).lineNumber = t then 0
        else if (recAt s i).lineNumber < t then -1 else 1 := by
    intro i hi
    rw [lineCmp, recAt_eq s i hi]
  have h := binarySearch2_char s.orderedSpecialLines.length
    (lineCmp s.heap s.orderedSpecialLines t) (fun i => (recAt s i).lineNumber) t hcmp hmono
  simpa using h

/-- `commit` is the identity when nothing is pending. -/
theorem commit_of_not_pending (s : LineHeightManager) (h : s.hasPending = false) :
    commit s = s := by
  simp [commit, h]

theorem totalHeight_eq_post (s : LineHeightManager) (h : s.hasPending = false) (n : Int) :
    totalHeightUntilLineNumber s n = totalPostCommit s n := by
  rw [totalHeightUntilLineNumber, commit_of_not_pending s h]

theorem height_eq_post (s : LineHeightManager) (h : s.hasPending = false) (n : Int) :
    heightForLineNumber s n = heightPostCommit s n := by
  rw [heightForLineNumber, commit_of_not_pending s h]

theorem totalPost_found (s : LineHeightManager) (n : Int) (k : Nat)
    (hk : binarySearchOverSpecialLinesArray s n = (k : Int))
    (hklen : k < s.orderedSpecialLines.length) :
    totalPostCommit s n = (recAt s k).prefixSum + (recAt s k).maximumSpecialHeight := by
  rw [totalPostCommit, hk, if_pos (Int.natCast_nonneg k)]
  rw [show ((k : Int)).toNat = k from Int.toNat_natCast k]
  rw [← recAt_eq s k hklen]

theorem totalPost_miss_zero (s : LineHeightManager) (n : Int)
    (h : binarySearchOverSpecialLinesArray s n = -1) :
    totalPostCommit s n = s.defaultLineHeight * n := by
  rw [totalPostCommit, h, if_neg (by norm_num : ¬ ((0 : Int) ≤ -1)),
    if_pos (rfl : (-1 : Int) = -1)]

theorem totalPost_miss_pos (s : LineHeightManager) (n : Int) (p : Nat) (hp : 1 ≤ p)
    (h : binarySearchOverSpecialLinesArray s n = -((p : Int) + 1))
    (hplen : p ≤ s.orderedSpecialLines.length) :
    totalPostCommit s n =
      (recAt s (p - 1)).prefixSum + (recAt s (p - 1)).maximumSpecialHeight +
        s.defaultLineHeight * (n - (recAt s (p - 1)).lineNumber) := by
  rw [totalPostCommit, h, if_neg (by omega : ¬ ((0 : Int) ≤ -((p : Int) + 1))),
    if_neg (by omega : ¬ (-((p : Int) + 1) = -1))]
  rw [show (-(-((p : Int) + 1) + 1)).toNat = p by omega]
  rw [recAt_eq s (p - 1) (by omega)]

theorem heightPost_found (s : LineHeightManager) (n : Int) (k : Nat)
    (hk : binarySearchOverSpecialLinesArray s n = (k : Int))
    (hklen : k < s.orderedSpecialLines.length) :
    heightPostCommit s n = (recAt s k).maximumSpecialHeight := by
  rw [heightPostCommit, hk, if_pos (Int.natCast_nonneg k)]
  rw [show ((k : Int)).toNat = k from Int.toNat_natCast k]
  rw [← recAt_eq s k hklen]

theorem heightPost_miss (s : LineHeightManager) (n : Int) (p : Nat)
    (h : binarySearchOverSpecialLinesArray s n = -((p : Int) + 1)) :
    heightPostCommit s n = s.defaultLineHeight := by
  rw [heightPostCommit, h, if_neg (by omega : ¬ ((0 : Int) ≤ -((p : Int) + 1)))]

/-- On a committed consistent manager, the total height up to line `n` exceeds
the total height up to line `n - 1` by exactly the height of line `n`. -/
theorem total_diff_height (s : LineHeightManager)
    (hcom : s.hasPending = false)
    (hc : ConsistentRecs s.defaultLineHeight (recs s)) (n : Int) :
    totalHeightUntilLineNumber s n =
      totalHeightUntilLineNumber s (n - 1) + heightForLineNumber s n := by
  obtain ⟨hdel, hpos, hmono, hshared, hbound, hattained, hfirst, hchain⟩ := hc
  simp only [recAt_def, recs_length] at hpos hmono hshared hbound hattained hfirst hchain
  have hmono' : ∀ i j, i ≤ j → j < s.orderedSpecialLines.length →
      (recAt s i).lineNumber ≤ (recAt s j).lineNumber :=
    fun i j hij hj => hmono i (lt_of_le_of_lt hij hj) j hj hij
  rw [totalHeight_eq_post s hcom, totalHeight_eq_post s hcom, height_eq_post s hcom]
  rcases searchOverOrdered_char s n hmono' with ⟨k, hk, hklen, hkline⟩ |
    ⟨q, hq, hqlen, hqlo, hqhi⟩
  · rcases searchOverOrdered_char s (n - 1) hmono' with ⟨k2, hk2, hk2len, hk2line⟩ |
      ⟨p, hp, hplen, hplo, hphi⟩
    · -- exact matches for both n and n - 1
      rw [totalPost_found s n k hk hklen, totalPost_found s (n - 1) k2 hk2 hk2len,
        heightPost_found s n k hk hklen]
      have hex : ∃ m, m < s.orderedSpecialLines.length ∧ (recAt s m).lineNumber = n :=
        ⟨k, hklen, hkline⟩
      have hp0len : Nat.find hex < s.orderedSpecialLines.length := (Nat.find_spec hex).1
      have hp0line : (recAt s (Nat.find hex)).lineNumber = n := (Nat.find_spec hex).2
      have hk2p0 : k2 < Nat.find hex := by
        by_contra hcon
        push_neg at hcon
        have h1 := hmono' (Nat.find hex) k2 hcon hk2len
        rw [hp0line, hk2line] at h1
        omega
      have hprev_lt : Nat.find hex - 1 < s.orderedSpecialLines.length := by omega
      have hprevline_ne : ¬ (recAt s (Nat.find hex - 1)).lineNumber = n := by
        intro hcontra
        exact Nat.find_min hex (show Nat.find hex - 1 < Nat.find hex by omega)
          ⟨hprev_lt, hcontra⟩
      have hge := hmono' k2 (Nat.find hex - 1) (by omega) hprev_lt
      have hle := hmono' (Nat.find hex - 1) (Nat.find hex) (by omega) hp0len
      rw [hk2line] at hge
      rw [hp0line] at hle
      have hprevline : (recAt s (Nat.find hex - 1)).lineNumber = n - 1 := by omega
      have hstep : Nat.find hex - 1 + 1 = Nat.find hex := by omega
      have hchain1 := hchain (Nat.find hex - 1) (by omega)
      rw [hstep] at hchain1
      have hchain2 := hchain1 (by rw [hp0line, hprevline]; omega)
      rw [hp0line, hprevline] at hchain2
      have hz : n - (n - 1) - 1 = 0 := by ring
      rw [hz, mul_zero, add_zero] at hchain2
      have hsh1 := hshared k hklen (Nat.find hex) hp0len (by rw [hkline, hp0line])
      have hsh2 := hshared k2 hk2len (Nat.find hex - 1) hprev_lt
        (by rw [hk2line, hprevline])
      linarith [hchain2, hsh1.2, hsh2.1, hsh2.2]
    · -- exact match for n, miss for n - 1
      rw [totalPost_found s n k hk hklen, heightPost_found s n k hk hklen]
      have hpk : p ≤ k := by
        by_contra hcon
        push_neg at hcon
        have h1 := hplo k hcon
        rw [hkline] at h1
        omega
      by_cases hp0 : p = 0
      · subst hp0
        have hm1 : binarySearchOverSpecialLinesArray s (n - 1) = -1 := by
          rw [hp]; norm_num
        rw [totalPost_miss_zero s (n - 1) hm1]
        have h0len : 0 < s.orderedSpecialLines.length := by omega
        have h0gt := hphi 0 (Nat.le_refl 0) h0len
        have h0le := hmono' 0 k (Nat.zero_le k) hklen
        rw [hkline] at h0le
        have h0line : (recAt s 0).lineNumber = n := by omega
        have hf := hfirst (by omega)
        rw [h0line] at hf
        have hsh := hshared k hklen 0 h0len (by rw [hkline, h0line])
        have harith : s.defaultLineHeight * (n - 1) =
            s.defaultLineHeight * (n - 1) := rfl
        linarith [hsh.2, hf]
      · have hp1 : 1 ≤ p := by omega
        have hplt : p < s.orderedSpecialLines.length := by omega
        rw [totalPost_miss_pos s (n - 1) p hp1 hp hplen]
        have hpm1line := hplo (p - 1) (by omega)
        have hpgt := hphi p (Nat.le_refl p) hplt
        have hple := hmono' p k hpk hklen
        rw [hkline] at hple
        have hpline : (recAt s p).lineNumber = n := by omega
        have hstep : p - 1 + 1 = p := by omega
        have hchain1 := hchain (p - 1) (by omega)
        rw [hstep] at hchain1
        have hchain2 := hchain1 (by rw [hpline]; omega)
        rw [hpline] at hchain2
        have hsh := hshared k hklen p hplt (by rw [hkline, hpline])
        have harith : s.defaultLineHeight * (n - (recAt s (p - 1)).lineNumber - 1) =
            s.defaultLineHeight * (n - 1 - (recAt s (p - 1)).lineNumber) := by ring
        linarith [hsh.2, hchain2, harith]
  · rcases searchOverOrdered_char s (n - 1) hmono' with ⟨k2, hk2, hk2len, hk2line⟩ |
      ⟨p, hp, hplen, hplo, hphi⟩
    · -- miss for n, exact match for n - 1
      have hk2q : k2 < q := by
        by_contra hcon
        push_neg at hcon
        have h1 := hqhi k2 hcon hk2len
        rw [hk2line] at h1
        omega
      have hq1 : 1 ≤ q := by omega
      have hqm1lt : q - 1 < s.orderedSpecialLines.length := by omega
      have h1 := hqlo (q - 1) (by omega)
      have h2 := hmono' k2 (q - 1) (by omega) hqm1lt
      rw [hk2line] at h2
      have hqm1line : (recAt s (q - 1)).lineNumber = n - 1 := by omega
      rw [totalPost_miss_pos s n q hq1 hq hqlen,
        totalPost_found s (n - 1) k2 hk2 hk2len, heightPost_miss s n q hq]
      have hsh := hshared k2 hk2len (q - 1) hqm1lt (by rw [hk2line, hqm1line])
      rw [hqm1line]
      have harith : s.defaultLineHeight * (n - (n - 1)) = s.defaultLineHeight := by ring
      linarith [hsh.1, hsh.2, harith]
    · -- miss for both n and n - 1
      have hpq : p = q := by
        by_contra hne
        rcases Nat.lt_or_ge p q with hlt | hge
        · have hplen2 : p < s.orderedSpecialLines.length := by omega
          have h1 := hphi p (Nat.le_refl p) hplen2
          have h2 := hqlo p hlt
          omega
        · have hqp : q < p := by omega
          have hqlen2 : q < s.orderedSpecialLines.length := by omega
          have h1 := hqhi q (Nat.le_refl q) hqlen2
          have h2 := hplo q hqp
          omega
      subst hpq
      by_cases hp0 : p = 0
      · subst hp0
        have hm1 : binarySearchOverSpecialLinesArray s n = -1 := by rw [hq]; norm_num
        have hm2 : binarySearchOverSpecialLinesArray s (n - 1) = -1 := by
          rw [hp]; norm_num
        rw [totalPost_miss_zero s n hm1, totalPost_miss_zero s (n - 1) hm2,
          heightPost_miss s n 0 hq]
        ring
      · have hp1 : 1 ≤ p := by omega
        rw [totalPost_miss_pos s n p hp1 hq hqlen,
          totalPost_miss_pos s (n - 1) p hp1 hp hplen, heightPost_miss s n p hq]
        ring

/-- On a committed consistent manager with non-negative override heights and a
non-negative default, every line height is non-negative. -/
theorem height_nonneg (s : LineHeightManager)
    (hcom : s.hasPending = false)
    (hc : ConsistentRecs s.defaultLineHeight (recs s))
    (hd : 0 ≤ s.defaultLineHeight)
    (hh : ∀ i, i < (recs s).length → 0 ≤ (recAt s i).specialHeight) (n : Int) :
    0 ≤ heightForLineNumber s n := by
  obtain ⟨hdel, hpos, hmono, hshared, hbound, hattained, hfirst, hchain⟩ := hc
  simp only [recAt_def, recs_length] at hpos hmono hattained
  simp only [recs_length] at hh
  have hmono' : ∀ i j, i ≤ j → j < s.orderedSpecialLines.length →
      (recAt s i).lineNumber ≤ (recAt s j).lineNumber :=
    fun i j hij hj => hmono i (lt_of_le_of_lt hij hj) j hj hij
  rw [height_eq_post s hcom]
  rcases searchOverOrdered_char s n hmono' with ⟨k, hk, hklen, hkline⟩ |
    ⟨q, hq, hqlen, hqlo, hqhi⟩
  · rw [heightPost_found s n k hk hklen]
    obtain ⟨j, hjlen, hjline, hjmax⟩ := hattained k hklen
    rw [hjmax]
    exact hh j hjlen
  · rw [heightPost_miss s n q hq]
    exact hd

/-- On a committed consistent manager the total height up to line 0 is 0. -/
theorem total_zero (s : LineHeightManager)
    (hcom : s.hasPending = false)
    (hc : ConsistentRecs s.defaultLineHeight (recs s)) :
    totalHeightUntilLineNumber s 0 = 0 := by
  obtain ⟨hdel, hpos, hmono, hshared, hbound, hattained, hfirst, hchain⟩ := hc
  simp only [recAt_def, recs_length] at hpos hmono
  have hmono' : ∀ i j, i ≤ j → j < s.orderedSpecialLines.length →
      (recAt s i).lineNumber ≤ (recAt s j).lineNumber :=
    fun i j hij hj => hmono i (lt_of_le_of_lt hij hj) j hj hij
  rw [totalHeight_eq_post s hcom]
  rcases searchOverOrdered_char s 0 hmono' with ⟨k, hk, hklen, hkline⟩ |
    ⟨q, hq, hqlen, hqlo, hqhi⟩
  · have h1 := hpos k hklen
    rw [hkline] at h1
    omega
  · have hq0 : q = 0 := by
      by_contra hne
      have h1 := hqlo 0 (by omega)
      have h2 := hpos 0 (by omega)
      omega
    subst hq0
    have hm1 : binarySearchOverSpecialLinesArray s 0 = -1 := by rw [hq]; norm_num
    rw [totalPost_miss_zero s 0 hm1, mul_zero]

/-- C8: on every committed consistent manager with non-negative override
heights and default height, `totalHeightUntilLineNumber 0 = 0`, consecutive
totals differ by exactly `heightForLineNumber`, and the total is monotonically
non-decreasing. -/
theorem c8_total_monotone_zero_diff (s : LineHeightManager)
    (hcom : s.hasPending = false)
    (hc : ConsistentRecs s.defaultLineHeight (recs s))
    (hd : 0 ≤ s.defaultLineHeight)
    (hh : ∀ i, i < (recs s).length → 0 ≤ (recAt s i).specialHeight) :
    totalHeightUntilLineNumber s 0 = 0 ∧
    (∀ n : Int, 1 ≤ n →
      totalHeightUntilLineNumber s n - totalHeightUntilLineNumber s (n - 1) =
        heightForLineNumber s n) ∧
    (∀ n m : Int, 0 ≤ n → n ≤ m →
      totalHeightUntilLineNumber s n ≤ totalHeightUntilLineNumber s m) := by
  refine ⟨total_zero s hcom hc, ?_, ?_⟩
  · intro n hn
    have h := total_diff_height s hcom hc n
    omega
  · intro n m hn hnm
    have key : ∀ x : Int, n ≤ x →
        totalHeightUntilLineNumber s n ≤ totalHeightUntilLineNumber s x := by
      refine Int.le_induction ?_ ?_
      · exact le_refl _
      · intro x hx ih
        have hdiff := total_diff_height s hcom hc (x + 1)
        have hstep : x + 1 - 1 = x := by ring
        rw [hstep] at hdiff
        have hnonneg := height_nonneg s hcom hc hd hh (x + 1)
        omega
    exact key m hnm

/-- Witness for C8: the statement instantiated on the concrete committed
single-override manager `stateA5`. -/
theorem c8_witness :
    totalHeightUntilLineNumber stateA5 0 = 0 ∧
    totalHeightUntilLineNumber stateA5 5 - totalHeightUntilLineNumber stateA5 4 =
      heightForLineNumber stateA5 5 ∧
    totalHeightUntilLineNumber stateA5 4 ≤ totalHeightUntilLineNumber stateA5 5 := by
  have h := c8_total_monotone_zero_diff stateA5 (by decide) (by decide) (by decide)
    (by decide)
  exact ⟨h.1, h.2.1 5 (by norm_num), h.2.2 4 5 (by norm_num) (by norm_num)⟩

/-- C2: on every committed consistent manager and line number `n ≥ 0`,
`totalHeightUntilLineNumber n` is: on an exact binary-search match at index `k`
(which is then in bounds and holds line `n`), `prefixSum + maximumSpecialHeight`
of the record at `k`; on a miss with insertion point 0, `defaultLineHeight * n`;
on a miss with insertion point `p > 0` (then `p ≤ length`),
`prev.prefixSum + prev.maximumSpecialHeight + defaultLineHeight * (n - prev.lineNumber)`
with `prev` the record at `p - 1`.  In particular, with default 20 and a single
override at line 5 with height 40, the totals at 5 and 4 are 120 and 80. -/
theorem c2_totalHeight_characterisation :
    (∀ (s : LineHeightManager) (n : Int),
      s.hasPending = false →
      ConsistentRecs s.defaultLineHeight (recs s) →
      0 ≤ n →
      (∀ k : Nat, binarySearchOverSpecialLinesArray s n = (k : Int) →
        k < (recs s).length ∧ (recAt s k).lineNumber = n ∧
        totalHeightUntilLineNumber s n =
          (recAt s k).prefixSum + (recAt s k).maximumSpecialHeight) ∧
      (binarySearchOverSpecialLinesArray s n = -1 →
        totalHeightUntilLineNumber s n = s.defaultLineHeight * n) ∧
      (∀ p : Nat, 1 ≤ p → binarySearchOverSpecialLinesArray s n = -((p : Int) + 1) →
        p ≤ (recs s).length ∧
        totalHeightUntilLineNumber s n =
          (recAt s (p - 1)).prefixSum + (recAt s (p - 1)).maximumSpecialHeight +
            s.defaultLineHeight * (n - (recAt s (p - 1)).lineNumber))) ∧
    totalHeightUntilLineNumber stateA5 5 = 120 ∧
    totalHeightUntilLineNumber stateA5 4 = 80 := by
  refine ⟨?_, by decide, by decide⟩
  intro s n hcom hc hn
  obtain ⟨hdel, hpos, hmono, hshared, hbound, hattained, hfirst, hchain⟩ := hc
  simp only [recAt_def, recs_length] at hmono
  have hmono' : ∀ i j, i ≤ j → j < s.orderedSpecialLines.length →
      (recAt s i).lineNumber ≤ (recAt s j).lineNumber :=
    fun i j hij hj => hmono i (lt_of_le_of_lt hij hj) j hj hij
  have hlen : (recs s).length = s.orderedSpecialLines.length := recs_length s
  rcases searchOverOrdered_char s n hmono' with ⟨k0, hk0, hk0len, hk0line⟩ |
    ⟨p0, hp0, hp0len, hp0lo, hp0hi⟩
  · refine ⟨?_, ?_, ?_⟩
    · intro k hk
      have hkk : k = k0 := by
        rw [hk] at hk0
        omega
      subst hkk
      exact ⟨by omega, hk0line,
        by rw [totalHeight_eq_post s hcom, totalPost_found s n k hk0 hk0len]⟩
    · intro hm
      rw [hm] at hk0
      omega
    · intro p hp hm
      rw [hm] at hk0
      omega
  · refine ⟨?_, ?_, ?_⟩
    · intro k hk
      rw [hk] at hp0
      omega
    · intro hm
      rw [totalHeight_eq_post s hcom, totalPost_miss_zero s n hm]
    · intro p hp hm
      have hpp : p = p0 := by
        rw [hm] at hp0
        omega
      subst hpp
      exact ⟨by omega,
        by rw [totalHeight_eq_post s hcom, totalPost_miss_pos s n p hp hp0 hp0len]⟩

/-- Witness for C2: the characterisation instantiated on the concrete
committed single-override manager `stateA5` at line 5 (an exact match at
index 0). -/
theorem c2_witness :
    0 < (recs stateA5).length ∧ (recAt stateA5 0).lineNumber = 5 ∧
    totalHeightUntilLineNumber stateA5 5 =
      (recAt stateA5 0).prefixSum + (recAt stateA5 0).maximumSpecialHeight :=
  (c2_totalHeight_characterisation.1 stateA5 5 (by decide) (by decide)
    (by norm_num)).1 0 (by decide)

theorem map_ext_fun {α β : Type} (l : List α) (f g : α → β) (h : ∀ x, f x = g x) :
    l.map f = l.map g := by
  induction l with
  | nil => rfl
  | cons a t ih => simp only [List.map_cons, h, ih]

theorem map_take_comm {α β : Type} (f : α → β) (l : List α) (n : Nat) :
    (l.take n).map f = (l.map f).take n := by
  induction l generalizing n with
  | nil => simp
  | cons a t ih =>
    cases n with
    | zero => simp
    | succ m => simp [ih]

theorem map_drop_comm {α β : Type} (f : α → β) (l : List α) (n : Nat) :
    (l.drop n).map f = (l.map f).drop n := by
  induction l generalizing n with
  | nil => simp
  | cons a t ih =>
    cases n with
    | zero => simp
    | succ m => simp [ih]

/-- Setting one arena slot to a record that agrees with the old one except on
`lineNumber` does not change any record up to `eraseLineNumber`. -/
theorem heapGet_set_erase (heap : List SpecialLine) (ref x : Nat) (r : SpecialLine)
    (hr : eraseLineNumber r = eraseLineNumber (heapGet heap ref)) :
    eraseLineNumber (heapGet (heap.set ref r) x) = eraseLineNumber (heapGet heap x) := by
  unfold heapGet
  rw [getD_set_split]
  by_cases h : ref = x ∧ ref < heap.length
  · rw [if_pos h, ← h.1]
    exact hr
  · rw [if_neg h]

/-- `shiftLines` changes records only in their `lineNumber`. -/
theorem shiftLines_erase (refs : List Nat) (heap : List SpecialLine) (delta : Int)
    (x : Nat) :
    eraseLineNumber (heapGet (shiftLines heap refs delta) x) =
      eraseLineNumber (heapGet heap x) := by
  induction refs generalizing heap with
  | nil => rfl
  | cons ref t ih =>
    have hstep : shiftLines heap (ref :: t) delta =
        shiftLines (heap.set ref
          { heapGet heap ref with
            lineNumber := (heapGet heap ref).lineNumber + delta }) t delta := rfl
    rw [hstep, ih]
    exact heapGet_set_erase heap ref x _ rfl

theorem spliceStart_le (s : LineHeightManager) (a : Int) :
    onLinesDeletedSpliceStart s a ≤ s.orderedSpecialLines.length := by
  rw [onLinesDeletedSpliceStart]
  split
  · omega
  · exact min_le_right _ _

/-- C10: on a committed manager, `onLinesInserted` changes only line numbers
(same records up to `eraseLineNumber`, same map, pending queue and invalid
index), and `onLinesDeleted` — when it does not fault — additionally removes
one contiguous sub-range; neither sets the dirty flag, so `mustCommit` is
`false` afterwards and the commit run by the next query is a no-op. -/
theorem c10_range_edits_frame (s : LineHeightManager) (a b : Int)
    (hcom : s.hasPending = false) :
    ((recs (onLinesInserted s a b)).map eraseLineNumber =
        (recs s).map eraseLineNumber ∧
      (onLinesInserted s a b).decorationIDToSpecialLine = s.decorationIDToSpecialLine ∧
      (onLinesInserted s a b).pendingSpecialLinesToInsert =
        s.pendingSpecialLinesToInsert ∧
      (onLinesInserted s a b).invalidIndex = s.invalidIndex ∧
      mustCommit (onLinesInserted s a b) = false ∧
      commit (onLinesInserted s a b) = onLinesInserted s a b) ∧
    ((∃ i j, i ≤ j ∧ j ≤ (recs s).length ∧
        (recs ((onLinesDeleted s a b).getD s)).map eraseLineNumber =
          ((recs s).take i ++ (recs s).drop j).map eraseLineNumber) ∧
      ((onLinesDeleted s a b).getD s).decorationIDToSpecialLine =
        s.decorationIDToSpecialLine ∧
      ((onLinesDeleted s a b).getD s).pendingSpecialLinesToInsert =
        s.pendingSpecialLinesToInsert ∧
      ((onLinesDeleted s a b).getD s).invalidIndex = s.invalidIndex ∧
      mustCommit ((onLinesDeleted s a b).getD s) = false ∧
      commit ((onLinesDeleted s a b).getD s) = (onLinesDeleted s a b).getD s) := by
  have hins : onLinesInserted s a b =
      { s with heap := (shiftLines s.heap
          (s.orderedSpecialLines.drop (onLinesInsertedStart s a)) (b - a + 1)) } := by
    rw [onLinesInserted, commit_of_not_pending s hcom]
  constructor
  · refine ⟨?_, ?_, ?_, ?_, ?_, ?_⟩
    · rw [hins]
      show (s.orderedSpecialLines.map (heapGet (shiftLines s.heap _ _))).map
          eraseLineNumber = (s.orderedSpecialLines.map (heapGet s.heap)).map
          eraseLineNumber
      rw [List.map_map, List.map_map]
      exact map_ext_fun _ _ _ (fun x => shiftLines_erase _ s.heap _ x)
    · rw [hins]
    · rw [hins]
    · rw [hins]
    · rw [hins]
      exact hcom
    · refine commit_of_not_pending _ ?_
      rw [hins]
      exact hcom
  · cases hdel : onLinesDeleted s a b with
    | none =>
      refine ⟨⟨0, 0, le_refl 0, Nat.zero_le _, ?_⟩, ?_, ?_, ?_, ?_, ?_⟩ <;>
        simp [mustCommit, hcom, commit_of_not_pending s hcom]
    | some s2 =>
      simp only [Option.getD_some]
      simp only [onLinesDeleted, commit_of_not_pending s hcom] at hdel
      split at hdel
      · exact absurd hdel (by simp)
      · rw [Option.some_inj] at hdel
        subst hdel
        refine ⟨?_, rfl, rfl, rfl, hcom, commit_of_not_pending _ hcom⟩
        refine ⟨onLinesDeletedSpliceStart s a,
          onLinesDeletedSpliceStart s a + onLinesDeletedSpliceCount s a b,
          Nat.le_add_right _ _, ?_, ?_⟩
        · have h1 := spliceStart_le s a
          have h2 : onLinesDeletedSpliceCount s a b ≤
              s.orderedSpecialLines.length - onLinesDeletedSpliceStart s a :=
            min_le_right _ _
          rw [recs_length]
          omega
        · show ((s.orderedSpecialLines.take (onLinesDeletedSpliceStart s a) ++
              s.orderedSpecialLines.drop (onLinesDeletedSpliceStart s a +
                onLinesDeletedSpliceCount s a b)).map (heapGet _)).map eraseLineNumber = _
          rw [List.map_map]
          rw [show ((recs s).take (onLinesDeletedSpliceStart s a) ++
              (recs s).drop (onLinesDeletedSpliceStart s a +
                onLinesDeletedSpliceCount s a b)).map eraseLineNumber =
            ((s.orderedSpecialLines.take (onLinesDeletedSpliceStart s a) ++
              s.orderedSpecialLines.drop (onLinesDeletedSpliceStart s a +
                onLinesDeletedSpliceCount s a b)).map (heapGet s.heap)).map
              eraseLineNumber from by
            rw [recs, ← map_take_comm, ← map_drop_comm, ← List.map_append]]
          rw [List.map_map]
          exact map_ext_fun _ _ _ (fun x => shiftLines_erase _ s.heap _ x)

/-- Witness for C10: the frame facts instantiated on the concrete committed
two-override manager `stateAB25` with the successful range edit `(3, 4)`. -/
theorem c10_witness :
    ((recs (onLinesInserted stateAB25 3 4)).map eraseLineNumber =
        (recs stateAB25).map eraseLineNumber ∧
      (onLinesInserted stateAB25 3 4).decorationIDToSpecialLine =
        stateAB25.decorationIDToSpecialLine ∧
      (onLinesInserted stateAB25 3 4).pendingSpecialLinesToInsert =
        stateAB25.pendingSpecialLinesToInsert ∧
      (onLinesInserted stateAB25 3 4).invalidIndex = stateAB25.invalidIndex ∧
      mustCommit (onLinesInserted stateAB25 3 4) = false ∧
      commit (onLinesInserted stateAB25 3 4) = onLinesInserted stateAB25 3 4) ∧
    ((∃ i j, i ≤ j ∧ j ≤ (recs stateAB25).length ∧
        (recs ((onLinesDeleted stateAB25 3 4).getD stateAB25)).map eraseLineNumber =
          ((recs stateAB25).take i ++ (recs stateAB25).drop j).map eraseLineNumber) ∧
      ((onLinesDeleted stateAB25 3 4).getD stateAB25).decorationIDToSpecialLine =
        stateAB25.decorationIDToSpecialLine ∧
      ((onLinesDeleted stateAB25 3 4).getD stateAB25).pendingSpecialLinesToInsert =
        stateAB25.pendingSpecialLinesToInsert ∧
      ((onLinesDeleted stateAB25 3 4).getD stateAB25).invalidIndex =
        stateAB25.invalidIndex ∧
      mustCommit ((onLinesDeleted stateAB25 3 4).getD stateAB25) = false ∧
      commit ((onLinesDeleted stateAB25 3 4).getD stateAB25) =
        (onLinesDeleted stateAB25 3 4).getD stateAB25) :=
  c10_range_edits_frame stateAB25 3 4 (by decide)

/-- C1: the claim's own scenario fails on the code.  With overrides `A`
(line 5, height 40) and `B` (line 5, height 25) committed, `heightForLineNumber 5`
is 40 as claimed; but after `removeSpecialLineUsingDecoration "A"` the next
query still returns 40, not 25: the implicit commit resumes at
`invalidIndex = 1` and keeps `B`'s stale `maximumSpecialHeight = 40`. -/
theorem c1_remove_keeps_stale_maximum :
    heightForLineNumber stateAB5 5 = 40 ∧
    heightForLineNumber (removeSpecialLineUsingDecoration stateAB5 "A") 5 = 40 := by
  constructor <;> decide

/-- C3: `onLinesDeleted` does not always succeed.  On a committed manager with
one override at line 3, `onLinesDeleted(3, 4)` finds an exact match at index 0,
decrements it to `-1`, and the line-number shift loop reads
`orderedSpecialLines[-1].lineNumber` — a TypeError, modelled as `none`. -/
theorem c3_onLinesDeleted_index_error :
    stateA3.hasPending = false ∧
    ConsistentRecs stateA3.defaultLineHeight (recs stateA3) ∧
    onLinesDeleted stateA3 3 4 = none := by
  refine ⟨by decide, by decide, by decide⟩

/-- C4: `onLinesDeleted` can remove a record whose line number is strictly
below `fromLineNumber`.  On committed overrides at lines 2 and 5,
`onLinesDeleted(5, 6)` widens the exact match at line 5 down to index 0 and
removes both records, including the one at line 2 < 5. -/
theorem c4_onLinesDeleted_removes_below_range :
    (recs stateAB25).map SpecialLine.lineNumber = [2, 5] ∧
    (onLinesDeleted stateAB25 5 6).map (fun t => (recs t).map SpecialLine.lineNumber) =
      some [] := by
  constructor <;> decide

/-- C5: `onLinesInserted` shifts a record whose line number equals
`fromLineNumber`, which the claim says must stay un-shifted.  On committed
overrides at lines 1 and 2, `onLinesInserted(1, 1)` widens backward across the
record at line 1 (the source compares against `fromLineNumber` instead of
`fromLineNumber + 1`) and shifts both records. -/
theorem c5_onLinesInserted_shifts_at_from :
    (recs stateAB12).map SpecialLine.lineNumber = [1, 2] ∧
    (recs (onLinesInserted stateAB12 1 1)).map SpecialLine.lineNumber = [2, 3] := by
  constructor <;> decide

/-- C6: the consistency predicate can fail immediately after a call to
`commit` on a reachable state.  Starting from the committed, consistent
`stateA5` (one override at line 5, `prefixSum = 80`), `onLinesInserted(1, 3)`
moves the override to line 8 without dirtying the structure, so the following
`commit` is a no-op and leaves `prefixSum = 80 ≠ 20 * (8 - 1)`. -/
theorem c6_commit_leaves_inconsistent_state :
    ConsistentRecs stateA5.defaultLineHeight (recs stateA5) ∧
    commit (onLinesInserted stateA5 1 3) = onLinesInserted stateA5 1 3 ∧
    (recs (commit (onLinesInserted stateA5 1 3))).map
        (fun r => (r.lineNumber, r.prefixSum)) = [(8, 80)] ∧
    ¬ ConsistentRecs (commit (onLinesInserted stateA5 1 3)).defaultLineHeight
        (recs (commit (onLinesInserted stateA5 1 3))) := by
  refine ⟨by decide, by decide, by decide, by decide⟩

/-- C7: insert-then-remove with a fresh identifier and no intervening commit
does not restore the pre-insert height.  With default 20,
`insertOrChangeSpecialLineHeightUsingDecoration "A" 5 40` queues a pending
record that is not yet in the decoration map, so the immediate
`removeSpecialLineUsingDecoration "A"` is a no-op and the next query returns
40 instead of the pre-insert 20. -/
theorem c7_insert_remove_no_roundtrip :
    heightForLineNumber (create 20) 5 = 20 ∧
    heightForLineNumber
      (removeSpecialLineUsingDecoration
        (insertOrChangeSpecialLineHeightUsingDecoration (create 20) "A" 5 40) "A") 5 = 40 := by
  constructor <;> decide

/-- C9: inserting a fresh decoration id queues a pending record that is not in
the id map, so removing that id before any commit is a no-op (the state is
unchanged: the record stays in the pending queue, the map still lacks the id),
and the next commit merges the pending record anyway — concretely, after
insert "A" at line 5 height 40 and an immediate remove "A", the next query
still returns 40. -/
theorem c9_remove_of_pending_insert_is_noop :
    (∀ (s : LineHeightManager) (id : String) (L H : Int),
       mapGet s.decorationIDToSpecialLine id = none →
       removeSpecialLineUsingDecoration
           (insertOrChangeSpecialLineHeightUsingDecoration s id L H) id =
         insertOrChangeSpecialLineHeightUsingDecoration s id L H ∧
       (insertOrChangeSpecialLineHeightUsingDecoration s id L H).pendingSpecialLinesToInsert =
         s.pendingSpecialLinesToInsert ++ [s.heap.length] ∧
       mapGet
           (insertOrChangeSpecialLineHeightUsingDecoration s id L H).decorationIDToSpecialLine
           id = none) ∧
    heightForLineNumber
      (removeSpecialLineUsingDecoration
        (insertOrChangeSpecialLineHeightUsingDecoration (create 20) "A" 5 40) "A") 5 = 40 := by
  constructor
  · intro s id L H h
    refine ⟨?_, ?_, ?_⟩ <;>
      simp [insertOrChangeSpecialLineHeightUsingDecoration, h, insertSpecialLineHeight,
        removeSpecialLineUsingDecoration]
  · decide

/-- Witness for C9: the no-op fact instantiated on a concrete fresh manager. -/
theorem c9_witness :
    removeSpecialLineUsingDecoration
        (insertOrChangeSpecialLineHeightUsingDecoration (create 20) "Z" 7 33) "Z" =
      insertOrChangeSpecialLineHeightUsingDecoration (create 20) "Z" 7 33 ∧
    (insertOrChangeSpecialLineHeightUsingDecoration
        (create 20) "Z" 7 33).pendingSpecialLinesToInsert =
      (create 20).pendingSpecialLinesToInsert ++ [(create 20).heap.length] ∧
    mapGet
        (insertOrChangeSpecialLineHeightUsingDecoration
          (create 20) "Z" 7 33).decorationIDToSpecialLine "Z" = none :=
  c9_remove_of_pending_insert_is_noop.1 (create 20) "Z" 7 33 (by decide)

end LineHeight
